import Mathlib

/-!
Verification of the binary serialization layer of safing-core.

This file gives a shallow embedding of the two codecs of the repository:

* the VarInt codec (`src/formats/varint/VarInt.go`): `Pack8`, `Pack16`,
  `Pack32`, `Pack64` and the corresponding `Unpack` functions, together
  with models of `encoding/binary.PutUvarint` and `encoding/binary.Uvarint`;
* the reflective BSON-style document encoder
  (`src/vendor/github.com/pkg/bson/encode.go`): `encode`, `writeMap`,
  `writeSlice`, `writeValue` and the small byte-writing helpers.

Go byte slices are modelled as `List Nat` with every element below 256;
machine integers are modelled by their unsigned bit patterns (`Nat` with an
explicit bound), and wrap-around is written as `% 2 ^ w` where the Go code
can overflow.  Fallible functions return `Except`.

A document decoder is not present in the repository; the specification
defines the wire format and calls the decoder its mechanical inverse, so
the decoder below is modelled from the specification text and is clearly
marked as such.
-/

namespace Safing

/-! ### VarInt codec: `src/formats/varint/VarInt.go` -/

/-- Error values returned by the varint unpack functions.  Each constructor
stands for one of the distinct `errors.New` messages in `VarInt.go`. -/
inductive VErr where
  /-- "varint: buf has zero length" -/
  | zeroLength
  /-- "varint: buf too small" -/
  | bufTooSmall
  /-- "varint: encoded integer greater than 255 (uint8)" -/
  | tooLarge8
  /-- "Fatal Error: buf too small" -/
  | fatalTooSmall
  /-- "VarInt encoded integer greater than 18446744073709551615 (uint64)" -/
  | tooLarge64
  /-- "VarInt encoded integer greater than 65535 (uint16)" -/
  | tooLarge16
  /-- "VarInt encoded integer greater than 4294967295 (uint32)" -/
  | tooLarge32
deriving DecidableEq, Repr

/-- Model of `Pack8` from `VarInt.go`: a value below 128 is a single byte,
any other uint8 is the byte followed by the fixed marker `0x01`. -/
def Pack8 (n : Nat) : List Nat :=
  if n < 128 then [n] else [n, 0x01]

/-- Model of the loop of `encoding/binary.PutUvarint`.  The fuel argument
bounds the number of 7-bit groups; the Go loop needs at most 10 groups for
any `uint64`, so `putUvarint` below instantiates the fuel with 10 and is
exact on the whole Go domain.  `byte(x) | 0x80` is `x % 256 ||| 128`. -/
def putUvarintAux : Nat → Nat → List Nat
  | 0, x => [x % 256]
  | fuel + 1, x =>
    if x < 128 then [x] else (x % 256 ||| 128) :: putUvarintAux fuel (x / 128)

/-- Model of `encoding/binary.PutUvarint` restricted to `uint64` inputs
(the only inputs the Go code can pass). -/
def putUvarint (x : Nat) : List Nat := putUvarintAux 10 x

/-- Model of `Pack16`: `binary.PutUvarint` into a 3-byte buffer, returning
only the bytes used.  The Go argument type restricts `n` to `n < 2 ^ 16`. -/
def Pack16 (n : Nat) : List Nat := putUvarint n

/-- Model of `Pack32` (5-byte buffer, `n < 2 ^ 32`). -/
def Pack32 (n : Nat) : List Nat := putUvarint n

/-- Model of `Pack64` (10-byte buffer, `n < 2 ^ 64`). -/
def Pack64 (n : Nat) : List Nat := putUvarint n

/-- Model of `Unpack8` from `VarInt.go`.  The success value is the pair of
the extracted integer and the reported number of bytes used.  Note that the
source returns `blob[0], 1, nil` in the two-byte branch as well. -/
def Unpack8 : List Nat → Except VErr (Nat × Nat)
  | [] => .error .zeroLength
  | b0 :: rest =>
    if b0 < 128 then .ok (b0, 1)
    else
      match rest with
      | [] => .error .bufTooSmall
      | b1 :: _ => if b1 ≠ 0x01 then .error .tooLarge8 else .ok (b0, 1)

/-- Model of the loop of `encoding/binary.Uvarint`: `x` and `s` are the
accumulator and shift, `i` the byte index.  The result is the decoded value
together with the Go return count: `0` for an empty or truncated buffer, a
negative count on 64-bit overflow.  `uint64` arithmetic wraps, hence the
explicit `% 2 ^ 64` on the shifted summand. -/
def uvarintLoop : List Nat → Nat → Nat → Nat → Nat × Int
  | [], _, _, _ => (0, 0)
  | b :: rest, x, s, i =>
    if i = 10 then (0, -((i : Int) + 1))
    else if b < 128 then
      if i = 9 ∧ 1 < b then (0, -((i : Int) + 1))
      else (x ||| (b <<< s) % 2 ^ 64, (i : Int) + 1)
    else uvarintLoop rest (x ||| ((b % 128) <<< s) % 2 ^ 64) (s + 7) (i + 1)

/-- Model of `encoding/binary.Uvarint`. -/
def Uvarint (buf : List Nat) : Nat × Int := uvarintLoop buf 0 0 0

/-- Model of `Unpack16` from `VarInt.go`. -/
def Unpack16 (b : List Nat) : Except VErr (Nat × Nat) :=
  let p := Uvarint b
  if p.2 = 0 then .error .fatalTooSmall
  else if p.2 < 0 then .error .tooLarge64
  else if p.1 > 65535 then .error .tooLarge16
  else .ok (p.1, p.2.toNat)

/-- Model of `Unpack32` from `VarInt.go`. -/
def Unpack32 (b : List Nat) : Except VErr (Nat × Nat) :=
  let p := Uvarint b
  if p.2 = 0 then .error .fatalTooSmall
  else if p.2 < 0 then .error .tooLarge64
  else if p.1 > 4294967295 then .error .tooLarge32
  else .ok (p.1, p.2.toNat)

/-- Model of `Unpack64` from `VarInt.go`. -/
def Unpack64 (b : List Nat) : Except VErr (Nat × Nat) :=
  let p := Uvarint b
  if p.2 = 0 then .error .fatalTooSmall
  else if p.2 < 0 then .error .tooLarge64
  else .ok (p.1, p.2.toNat)

/-! ### BSON document encoder: `src/vendor/github.com/pkg/bson/encode.go`

The encoder dispatches on the runtime kind of each map value.  The closed
`Value` type below enumerates exactly the runtime shapes the source
distinguishes: the three named types matched by the type switch
(`ObjectId`, `Datetime`, `Timestamp`), the reflection kinds of the inner
switch (`Float64`, `String`, `Bool`, `Int32`, `Int64`, `Slice`, `Map`),
the nil interface value (`VNull`), and a catch-all `VOther` carrying the
Go type string for every other kind (the `default` branch).  Numeric
values are represented by their unsigned bit patterns; a Go string by its
byte sequence. -/

/-- Runtime value of a map entry as seen by `writeValue`. -/
inductive Value where
  /-- nil interface value: `v.IsNil()` is true. -/
  | VNull
  /-- `bson.ObjectId`, a `[12]byte`. -/
  | VObjectId (bytes : List Nat)
  /-- `bson.Datetime`, an `int64` given by its bit pattern. -/
  | VDatetime (bits : Nat)
  /-- `bson.Timestamp`, an `int64` given by its bit pattern. -/
  | VTimestamp (bits : Nat)
  /-- `float64`, given by its `math.Float64bits` pattern. -/
  | VDouble (bits : Nat)
  /-- Go string, given by its byte sequence. -/
  | VString (bytes : List Nat)
  /-- `bool`. -/
  | VBool (b : Bool)
  /-- `int32`, given by its bit pattern. -/
  | VInt32 (bits : Nat)
  /-- `int64`, given by its bit pattern. -/
  | VInt64 (bits : Nat)
  /-- slice; encoded as an array with positional decimal keys. -/
  | VArr (elems : List Value)
  /-- `map[string]interface` value; the field list fixes one iteration
  order of `v.MapKeys()`. -/
  | VDoc (fields : List (List Nat × Value))
  /-- any other non-nil kind, carrying `v.Type().String()`. -/
  | VOther (typeName : String)

/-- Field of a document: key bytes paired with the value. -/
abbrev Field := List Nat × Value

/-- Errors of the encoder, one constructor per `errors.New` call site in
`encode.go`, each carrying the Go type string interpolated there. -/
inductive EncErr where
  /-- "bson: error calling MarshalJSON for type T: was nil" -/
  | wasNil (typeName : String)
  /-- "bson: error calling MarshalJSON for type T: unsupported" -/
  | unsupportedRoot (typeName : String)
  /-- "bson: unsupported type: T" -/
  | unsupportedType (typeName : String)
deriving DecidableEq, Repr

/-- Little-endian bytes of `byte(v), byte(v>>8), byte(v>>16), byte(v>>24)`
as written by `writer.writeInt32`. -/
def le32 (n : Nat) : List Nat :=
  [n % 256, n / 2 ^ 8 % 256, n / 2 ^ 16 % 256, n / 2 ^ 24 % 256]

/-- Little-endian bytes of an `int64` bit pattern as written by
`writer.writeInt64` (and `writer.writeFloat64`). -/
def le64 (n : Nat) : List Nat :=
  [n % 256, n / 2 ^ 8 % 256, n / 2 ^ 16 % 256, n / 2 ^ 24 % 256,
   n / 2 ^ 32 % 256, n / 2 ^ 40 % 256, n / 2 ^ 48 % 256, n / 2 ^ 56 % 256]

/-- Bytes appended by `writer.writeCstring`: the string then `0x00`. -/
def writeCstring (s : List Nat) : List Nat := s ++ [0]

/-- Decimal digits loop of `strconv.Itoa` for a non-negative index.  The
fuel (20) covers every Go `int`, so the model is exact on the Go domain. -/
def natToDecimalAux : Nat → Nat → List Nat
  | 0, n => [48 + n % 10]
  | fuel + 1, n =>
    if n < 10 then [48 + n] else natToDecimalAux fuel (n / 10) ++ [48 + n % 10]

/-- Model of `strconv.Itoa` on a non-negative index, as a byte list. -/
def natToDecimal (n : Nat) : List Nat := natToDecimalAux 20 n

mutual

/-- Model of `writer.writeValue`.  The first component is the byte
sequence the call appends to `w.bson` (also when it fails midway inside a
nested document), the second the returned count or error.  Each branch
mirrors one case of the source switch: tag byte, NUL-terminated element
name, then the payload. -/
def writeValue (ename : List Nat) (v : Value) : List Nat × Except EncErr Nat :=
  match v with
  | .VNull => ([0x0a] ++ writeCstring ename, .ok (1 + (ename.length + 1)))
  | .VObjectId bs =>
      ([0x07] ++ writeCstring ename ++ bs, .ok (1 + (ename.length + 1) + bs.length))
  | .VDatetime n =>
      ([0x09] ++ writeCstring ename ++ le64 n, .ok (1 + (ename.length + 1) + 8))
  | .VTimestamp n =>
      ([0x11] ++ writeCstring ename ++ le64 n, .ok (1 + (ename.length + 1) + 8))
  | .VDouble n =>
      ([0x01] ++ writeCstring ename ++ le64 n, .ok (1 + (ename.length + 1) + 8))
  | .VString s =>
      ([0x02] ++ writeCstring ename ++ le32 (s.length + 1) ++ s ++ [0],
       .ok (1 + (ename.length + 1) + 4 + (s.length + 1)))
  | .VBool b =>
      ([0x08] ++ writeCstring ename ++ [if b then 1 else 0],
       .ok (1 + (ename.length + 1) + 1))
  | .VInt32 n =>
      ([0x10] ++ writeCstring ename ++ le32 n, .ok (1 + (ename.length + 1) + 4))
  | .VInt64 n =>
      ([0x12] ++ writeCstring ename ++ le64 n, .ok (1 + (ename.length + 1) + 8))
  | .VArr es =>
      (match writeSlice es with
       | (bs, .error e) => ([0x04] ++ writeCstring ename ++ bs, .error e)
       | (bs, .ok n) => ([0x04] ++ writeCstring ename ++ bs, .ok (1 + (ename.length + 1) + n)))
  | .VDoc fs =>
      (match writeMap fs with
       | (bs, .error e) => ([0x03] ++ writeCstring ename ++ bs, .error e)
       | (bs, .ok n) => ([0x03] ++ writeCstring ename ++ bs, .ok (1 + (ename.length + 1) + n)))
  | .VOther t => ([], .error (.unsupportedType t))

/-- Field loop of `writer.writeMap`: encode each key/value pair in
iteration order, stopping at the first error; the count sums the field
sizes.  Bytes produced before a failure stay in the buffer. -/
def writeFields (fs : List Field) : List Nat × Except EncErr Nat :=
  match fs with
  | [] => ([], .ok 0)
  | (k, v) :: rest =>
    match writeValue k v with
    | (bs, .error e) => (bs, .error e)
    | (bs, .ok n) =>
      match writeFields rest with
      | (bs2, .error e) => (bs ++ bs2, .error e)
      | (bs2, .ok m) => (bs ++ bs2, .ok (n + m))

/-- Element loop of `writer.writeSlice`: like `writeFields` with the
element names synthesized by `strconv.Itoa` of the running index. -/
def writeElems (i : Nat) (es : List Value) : List Nat × Except EncErr Nat :=
  match es with
  | [] => ([], .ok 0)
  | v :: rest =>
    match writeValue (natToDecimal i) v with
    | (bs, .error e) => (bs, .error e)
    | (bs, .ok n) =>
      match writeElems (i + 1) rest with
      | (bs2, .error e) => (bs ++ bs2, .error e)
      | (bs2, .ok m) => (bs ++ bs2, .ok (n + m))

/-- Model of `writer.writeMap`: append a 4-byte placeholder header, the
fields and the trailing `0x00`, then backpatch the header with the count
`sizeofInt32 + 1 + Σ field sizes`.  On a field error the placeholder and
the partial fields remain in the buffer and no trailer is written. -/
def writeMap (fs : List Field) : List Nat × Except EncErr Nat :=
  match writeFields fs with
  | (body, .error e) => ([0, 0, 0, 0] ++ body, .error e)
  | (body, .ok n) => (le32 (4 + 1 + n) ++ body ++ [0], .ok (4 + 1 + n))

/-- Model of `writer.writeSlice`, identical framing to `writeMap` with
positional element names starting at index 0. -/
def writeSlice (es : List Value) : List Nat × Except EncErr Nat :=
  match writeElems 0 es with
  | (body, .error e) => ([0, 0, 0, 0] ++ body, .error e)
  | (body, .ok n) => (le32 (4 + 1 + n) ++ body ++ [0], .ok (4 + 1 + n))

end

/-- Top-level argument shapes of `encode`, classified by the reflection
tests the source performs, each non-map shape carrying the Go type string
`rv.Type().String()`.  `reflect.Value.IsNil` is called before any kind
test; by the contract of package `reflect` it panics unless the kind is
nilable (chan, func, interface, map, pointer, slice), and it also panics
on the zero `Value` obtained from a nil interface argument. -/
inductive RootArg where
  /-- untyped nil argument: `reflect.ValueOf(v)` is the zero Value. -/
  | untypedNil
  /-- nilable kind whose value is nil: `rv.IsNil()` is true. -/
  | typedNil (t : String)
  /-- non-nilable kind (int, string, bool, float64, struct, array, ...):
  `rv.IsNil()` panics. -/
  | scalar (t : String)
  /-- non-nil slice: falls through to the unsupported default. -/
  | slice (t : String)
  /-- any other non-nil nilable kind that is neither pointer nor map. -/
  | other (t : String)
  /-- non-nil map with the given entries. -/
  | map (fs : List Field)
  /-- non-nil pointer to a map with the given entries. -/
  | ptrToMap (fs : List Field)
  /-- non-nil pointer to a non-map value. -/
  | ptrToOther (t : String)

/-- Result of a call to `encode`: either a Go panic (raised inside
`reflect.Value.IsNil`) or the returned byte slice and error. -/
inductive EncResult where
  | panicked (msg : String)
  | returned (bytes : List Nat) (err : Option EncErr)
deriving DecidableEq

/-- Model of `encode` from `encode.go`: check `rv.IsNil()`, dereference a
pointer, then switch on the kind, encoding only maps and returning the
buffer together with any error. -/
def encode : RootArg → EncResult
  | .untypedNil => .panicked "reflect: call of reflect.Value.IsNil on zero Value"
  | .scalar t => .panicked ("reflect: call of reflect.Value.IsNil on " ++ t ++ " Value")
  | .typedNil t => .returned [] (some (.wasNil t))
  | .map fs =>
    (match writeMap fs with
     | (bs, .error e) => .returned bs (some e)
     | (bs, .ok _) => .returned bs none)
  | .ptrToMap fs =>
    (match writeMap fs with
     | (bs, .error e) => .returned bs (some e)
     | (bs, .ok _) => .returned bs none)
  | .slice t => .returned [] (some (.unsupportedRoot t))
  | .other t => .returned [] (some (.unsupportedRoot t))
  | .ptrToOther t => .returned [] (some (.unsupportedRoot t))

/-! ### Supported value trees and the array-to-document view -/

/-- Byte sequence that is a valid field name or string payload per the
specification data model: UTF-8 bytes with no embedded NUL. -/
def goodName (s : List Nat) : Bool := s.all fun b => decide (0 < b ∧ b < 256)

mutual

/-- Value tree built only from the kinds of the type-tag table of the
specification (so no `bool` and no unsupported kind), with every numeric
bit pattern inside its width, every `ObjectId` exactly 12 bytes, and
names and strings free of embedded NUL bytes. -/
def goodValue : Value → Bool
  | .VNull => true
  | .VObjectId bs => bs.length == 12 && bs.all fun b => decide (b < 256)
  | .VDatetime n => decide (n < 2 ^ 64)
  | .VTimestamp n => decide (n < 2 ^ 64)
  | .VDouble n => decide (n < 2 ^ 64)
  | .VString s => goodName s
  | .VBool _ => false
  | .VInt32 n => decide (n < 2 ^ 32)
  | .VInt64 n => decide (n < 2 ^ 64)
  | .VArr es => goodElems es
  | .VDoc fs => goodFields fs
  | .VOther _ => false

/-- All fields have good names and good values. -/
def goodFields : List Field → Bool
  | [] => true
  | (k, v) :: rest => goodName k && goodValue v && goodFields rest

/-- All elements are good values. -/
def goodElems : List Value → Bool
  | [] => true
  | v :: rest => goodValue v && goodElems rest

end

mutual

/-- View of a value after one encode/decode round trip: arrays become
documents whose keys are the decimal strings of the element positions;
everything else is unchanged. -/
def docify : Value → Value
  | .VArr es => .VDoc (docifyElems 0 es)
  | .VDoc fs => .VDoc (docifyFields fs)
  | v => v

/-- `docify` mapped over document fields. -/
def docifyFields : List Field → List Field
  | [] => []
  | (k, v) :: rest => (k, docify v) :: docifyFields rest

/-- `docify` mapped over array elements, synthesizing the positional
decimal keys. -/
def docifyElems : Nat → List Value → List Field
  | _, [] => []
  | i, v :: rest => (natToDecimal i, docify v) :: docifyElems (i + 1) rest

end

/-! ### Document decoder

No decoder is present in the repository.  The specification defines the
wire format bit-exactly and states that a conforming decoder is the
mechanical inverse of the encoder, validating the length header, the
per-tag payloads and the trailing terminator.  The functions below are
modelled from that specification text. -/

/-- Modelled from the spec: decode errors of the missing document decoder,
one constructor per failure reason named in the specification (declared
length mismatch, truncated buffer, bad terminator, unknown type tag). -/
inductive DecErr where
  | truncated
  | missingTerminator
  | lengthMismatch
  | badStringTerminator
  | badTag (tag : Nat)
  | outOfFuel
deriving DecidableEq, Repr

/-- Reads a 4-byte little-endian unsigned integer, if present. -/
def readLE32? : List Nat → Option Nat
  | b0 :: b1 :: b2 :: b3 :: _ => some (b0 + 2 ^ 8 * b1 + 2 ^ 16 * b2 + 2 ^ 24 * b3)
  | _ => none

/-- Reads an 8-byte little-endian unsigned integer, if present. -/
def readLE64? : List Nat → Option Nat
  | b0 :: b1 :: b2 :: b3 :: b4 :: b5 :: b6 :: b7 :: _ =>
    some (b0 + 2 ^ 8 * b1 + 2 ^ 16 * b2 + 2 ^ 24 * b3 +
          2 ^ 32 * b4 + 2 ^ 40 * b5 + 2 ^ 48 * b6 + 2 ^ 56 * b7)
  | _ => none

/-- Reads a NUL-terminated name, returning it with the remaining bytes. -/
def parseCString : List Nat → Option (List Nat × List Nat)
  | [] => none
  | 0 :: rest => some ([], rest)
  | b :: rest =>
    match parseCString rest with
    | none => none
    | some (s, r) => some (b :: s, r)

mutual

/-- Modelled from the spec: the missing document decoder.  Read the 4-byte
length, validate that at least that many bytes remain, decode the fields
of the unit and confirm the single `0x00` terminator sits exactly at the
declared length; return the fields and the bytes after the unit.  The fuel
argument only forces termination; `Decode` supplies enough for any input. -/
def decodeDoc : Nat → List Nat → Except DecErr (List Field × List Nat)
  | 0, _ => .error .outOfFuel
  | fuel + 1, bs =>
    match readLE32? bs with
    | none => .error .truncated
    | some len =>
      if bs.length < len then .error .truncated
      else
        match decodeFields fuel ((bs.take len).drop 4) with
        | .error e => .error e
        | .ok (fields, leftover) =>
          if leftover = [] then .ok (fields, bs.drop len) else .error .lengthMismatch

/-- Modelled from the spec: decode fields until the `0x00` terminator,
each field being a type tag, a NUL-terminated name and a payload. -/
def decodeFields : Nat → List Nat → Except DecErr (List Field × List Nat)
  | 0, _ => .error .outOfFuel
  | fuel + 1, bs =>
    match bs with
    | [] => .error .missingTerminator
    | 0 :: rest => .ok ([], rest)
    | tag :: rest =>
      match parseCString rest with
      | none => .error .truncated
      | some (name, r2) =>
        match decodePayload fuel tag r2 with
        | .error e => .error e
        | .ok (v, r3) =>
          match decodeFields fuel r3 with
          | .error e => .error e
          | .ok (fields, r4) => .ok ((name, v) :: fields, r4)

/-- Modelled from the spec: decode one payload by dispatching on the type
tag with the table of the specification (which has no entry for `bool`);
a nested document and an array are both decoded as documents, since the
byte stream alone cannot distinguish them. -/
def decodePayload : Nat → Nat → List Nat → Except DecErr (Value × List Nat)
  | 0, _, _ => .error .outOfFuel
  | fuel + 1, tag, bs =>
    if tag = 0x0a then .ok (.VNull, bs)
    else if tag = 0x01 then
      match readLE64? bs with
      | none => .error .truncated
      | some n => .ok (.VDouble n, bs.drop 8)
    else if tag = 0x02 then
      match readLE32? bs with
      | none => .error .truncated
      | some len =>
        if (bs.drop 4).length < len then .error .truncated
        else
          match ((bs.drop 4).take len).getLast? with
          | some 0 => .ok (.VString ((bs.drop 4).take len).dropLast, (bs.drop 4).drop len)
          | _ => .error .badStringTerminator
    else if tag = 0x03 then
      match decodeDoc fuel bs with
      | .error e => .error e
      | .ok (fs, rest) => .ok (.VDoc fs, rest)
    else if tag = 0x04 then
      match decodeDoc fuel bs with
      | .error e => .error e
      | .ok (fs, rest) => .ok (.VDoc fs, rest)
    else if tag = 0x07 then
      if bs.length < 12 then .error .truncated
      else .ok (.VObjectId (bs.take 12), bs.drop 12)
    else if tag = 0x09 then
      match readLE64? bs with
      | none => .error .truncated
      | some n => .ok (.VDatetime n, bs.drop 8)
    else if tag = 0x10 then
      match readLE32? bs with
      | none => .error .truncated
      | some n => .ok (.VInt32 n, bs.drop 4)
    else if tag = 0x11 then
      match readLE64? bs with
      | none => .error .truncated
      | some n => .ok (.VTimestamp n, bs.drop 8)
    else if tag = 0x12 then
      match readLE64? bs with
      | none => .error .truncated
      | some n => .ok (.VInt64 n, bs.drop 8)
    else .error (.badTag tag)

end

/-- Modelled from the spec: the missing top-level decoder, returning the
decoded document and any bytes after it.  The fuel `3 * bs.length + 3`
dominates the recursion depth for every input. -/
def Decode (bs : List Nat) : Except DecErr (Value × List Nat) :=
  match decodeDoc (3 * bs.length + 3) bs with
  | .error e => .error e
  | .ok (fs, rest) => .ok (.VDoc fs, rest)

/-- Modelled from the spec: the number of characters of a UTF-8 string
given by its bytes, counted as the bytes that are not continuation bytes
(a continuation byte is one in the range 128 to 191). -/
def utf8CharCount (s : List Nat) : Nat :=
  (s.filter fun b => decide (¬(128 ≤ b ∧ b < 192))).length

/-- Type tag byte that `writeValue` emits for each value kind (0 for the
unsupported kind, which emits nothing). -/
def tagOf : Value → Nat
  | .VNull => 0x0a
  | .VObjectId _ => 0x07
  | .VDatetime _ => 0x09
  | .VTimestamp _ => 0x11
  | .VDouble _ => 0x01
  | .VString _ => 0x02
  | .VBool _ => 0x08
  | .VInt32 _ => 0x10
  | .VInt64 _ => 0x12
  | .VArr _ => 0x04
  | .VDoc _ => 0x03
  | .VOther _ => 0

/-- Payload bytes that `writeValue` emits after the tag and the element
name, collected from its branches. -/
def payloadOf : Value → List Nat
  | .VNull => []
  | .VObjectId bs => bs
  | .VDatetime n => le64 n
  | .VTimestamp n => le64 n
  | .VDouble n => le64 n
  | .VString s => le32 (s.length + 1) ++ s ++ [0]
  | .VBool b => [if b then 1 else 0]
  | .VInt32 n => le32 n
  | .VInt64 n => le64 n
  | .VArr es => (writeSlice es).1
  | .VDoc fs => (writeMap fs).1
  | .VOther _ => []

/-! ### VarInt codec lemmas -/

/-- Disjoint bitwise or is addition: a value below `2 ^ k` or-ed with a
value shifted up by `k`. -/
theorem lor_shift (x m k : Nat) (hx : x < 2 ^ k) : x ||| m <<< k = x + m * 2 ^ k := by
  have h1 : m <<< k = m * 2 ^ k := Nat.shiftLeft_eq m k
  apply Nat.eq_of_testBit_eq
  intro j
  rw [Nat.testBit_lor, h1, show x + m * 2 ^ k = 2 ^ k * m + x by ring,
    Nat.testBit_mul_pow_two_add m hx j]
  by_cases hj : j < k
  · simp only [hj, if_true, ← h1, Nat.testBit_shiftLeft]
    simp [Nat.not_le.2 hj]
  · simp only [hj, if_false, ← h1, Nat.testBit_shiftLeft]
    have hxj : x.testBit j = false :=
      Nat.testBit_lt_two_pow
        (lt_of_lt_of_le hx (Nat.pow_le_pow_right (by norm_num) (Nat.le_of_not_lt hj)))
    simp [hxj, Nat.le_of_not_lt hj]

set_option maxRecDepth 4000 in
/-- Byte value or-ed with the continuation bit, for bytes. -/
theorem or128 : ∀ a < 256, a ||| 128 = a % 128 + 128 := by decide

/-- The group list produced by `putUvarintAux` is never empty. -/
theorem putUvarintAux_ne_nil (fuel n : Nat) : putUvarintAux fuel n ≠ [] := by
  cases fuel with
  | zero => simp [putUvarintAux]
  | succ f => by_cases h : n < 128 <;> simp [putUvarintAux, h]

/-- Main round-trip invariant of the unsigned varint pair: running the
`Uvarint` loop on the encoding of `n`, starting at byte index `i` with
shift `7 * i` and an accumulator below `2 ^ (7 * i)`. -/
theorem uvarintLoop_putUvarintAux (fuel : Nat) :
    ∀ n x i, n < 128 ^ fuel → i ≤ 9 → n < 2 ^ (64 - 7 * i) → x < 2 ^ (7 * i) →
      uvarintLoop (putUvarintAux fuel n) x (7 * i) i
        = (x + n * 2 ^ (7 * i), (i : Int) + (putUvarintAux fuel n).length) := by
  induction fuel with
  | zero =>
    intro n x i hfuel hi _ hx
    have hn0 : n = 0 := by simpa using hfuel
    subst hn0
    have h10 : ¬(i = 10) := by omega
    have hkey : x ||| ((0 : Nat) <<< (7 * i)) % 2 ^ 64 = x := by
      simp [Nat.zero_shiftLeft]
    simp only [putUvarintAux, Nat.zero_mod, uvarintLoop]
    rw [if_neg h10, if_pos (by norm_num), if_neg (by omega), hkey]
    norm_num
  | succ f ih =>
    intro n x i hfuel hi hn hx
    have hpow : (0 : Nat) < 2 ^ (7 * i) := pow_pos (by norm_num) _
    by_cases h : n < 128
    · have h10 : ¬(i = 10) := by omega
      have hguard : ¬(i = 9 ∧ 1 < n) := by
        rintro ⟨rfl, hgt⟩
        norm_num at hn
        omega
      have hsh : n <<< (7 * i) = n * 2 ^ (7 * i) := Nat.shiftLeft_eq n (7 * i)
      have hlt : n <<< (7 * i) < 2 ^ 64 := by
        rw [hsh]
        calc n * 2 ^ (7 * i) < 2 ^ (64 - 7 * i) * 2 ^ (7 * i) :=
              (Nat.mul_lt_mul_right hpow).mpr hn
          _ = 2 ^ 64 := by rw [← pow_add]; congr 1; omega
      have hkey : x ||| (n <<< (7 * i)) % 2 ^ 64 = x + n * 2 ^ (7 * i) := by
        rw [Nat.mod_eq_of_lt hlt, lor_shift x n (7 * i) hx]
      simp only [putUvarintAux, h, if_true, uvarintLoop]
      rw [if_neg h10, if_neg hguard, hkey]
      norm_num
    · have h10 : ¬(i = 10) := by omega
      have h256 : n % 256 < 256 := Nat.mod_lt _ (by norm_num)
      have hb : n % 256 ||| 128 = n % 128 + 128 := by
        rw [or128 (n % 256) h256]
        congr 1
        omega
      have hi8 : i ≤ 8 := by
        by_contra hcon
        have h9 : i = 9 := by omega
        subst h9
        norm_num at hn
        omega
      have hmod : (n % 128 + 128) % 128 = n % 128 := by omega
      have hsh : (n % 128) <<< (7 * i) = (n % 128) * 2 ^ (7 * i) :=
        Nat.shiftLeft_eq _ _
      have hlt : (n % 128) <<< (7 * i) < 2 ^ 64 := by
        rw [hsh]
        calc (n % 128) * 2 ^ (7 * i) < 128 * 2 ^ (7 * i) :=
              (Nat.mul_lt_mul_right hpow).mpr (Nat.mod_lt _ (by norm_num))
          _ = 2 ^ (7 * i + 7) := by
              rw [show (128 : Nat) = 2 ^ 7 by norm_num, ← pow_add]
              ring_nf
          _ ≤ 2 ^ 64 := Nat.pow_le_pow_right (by norm_num) (by omega)
      have hkey : x ||| ((n % 128) <<< (7 * i)) % 2 ^ 64 = x + (n % 128) * 2 ^ (7 * i) := by
        rw [Nat.mod_eq_of_lt hlt, lor_shift x (n % 128) (7 * i) hx]
      have harg1 : n / 128 < 128 ^ f :=
        Nat.div_lt_of_lt_mul (by rw [← pow_succ']; exact hfuel)
      have harg2 : n / 128 < 2 ^ (64 - 7 * (i + 1)) := by
        apply Nat.div_lt_of_lt_mul
        calc n < 2 ^ (64 - 7 * i) := hn
          _ = 128 * 2 ^ (64 - 7 * (i + 1)) := by
              rw [show (128 : Nat) = 2 ^ 7 by norm_num, ← pow_add]
              congr 1
              omega
      have harg3 : x + (n % 128) * 2 ^ (7 * i) < 2 ^ (7 * (i + 1)) := by
        have hle : (n % 128) * 2 ^ (7 * i) ≤ 127 * 2 ^ (7 * i) :=
          Nat.mul_le_mul_right _ (by omega)
        have h2 : 2 ^ (7 * (i + 1)) = 128 * 2 ^ (7 * i) := by
          rw [show (128 : Nat) = 2 ^ 7 by norm_num, ← pow_add]
          ring_nf
        omega
      have hrec := ih (n / 128) (x + (n % 128) * 2 ^ (7 * i)) (i + 1) harg1 (by omega) harg2 harg3
      simp only [putUvarintAux, h, if_false, uvarintLoop]
      rw [hb, if_neg h10, if_neg (show ¬(n % 128 + 128 < 128) by omega), hmod, hkey,
        show 7 * i + 7 = 7 * (i + 1) by ring, hrec]
      congr 1
      · have hsplit : n % 128 + 128 * (n / 128) = n := by omega
        calc x + n % 128 * 2 ^ (7 * i) + n / 128 * 2 ^ (7 * (i + 1))
            = x + (n % 128 + 128 * (n / 128)) * 2 ^ (7 * i) := by
              rw [show 7 * (i + 1) = 7 * i + 7 by ring, pow_add]
              ring
          _ = x + n * 2 ^ (7 * i) := by rw [hsplit]
      · simp only [List.length_cons]
        push_cast
        ring

/-- Length bound: a value below `128 ^ k` needs at most `k` groups. -/
theorem putUvarintAux_length (fuel : Nat) :
    ∀ k n, 1 ≤ k → n < 128 ^ k → (putUvarintAux fuel n).length ≤ k := by
  induction fuel with
  | zero => intro k n hk _; simpa [putUvarintAux] using hk
  | succ f ih =>
    intro k n hk hn
    by_cases h : n < 128
    · simpa [putUvarintAux, h] using hk
    · have hk2 : 2 ≤ k := by
        by_contra hcon
        have hk1 : k = 1 := by omega
        subst hk1
        simp at hn
        omega
      have hdiv : n / 128 < 128 ^ (k - 1) := by
        apply Nat.div_lt_of_lt_mul
        calc n < 128 ^ k := hn
          _ = 128 * 128 ^ (k - 1) := by
            rw [← pow_succ']
            congr 1
            omega
      have := ih (k - 1) (n / 128) (by omega) hdiv
      simp only [putUvarintAux, h, if_false, List.length_cons]
      omega

/-- Every group byte is a byte. -/
theorem putUvarintAux_lt256 (fuel : Nat) :
    ∀ n b, b ∈ putUvarintAux fuel n → b < 256 := by
  induction fuel with
  | zero =>
    intro n b hb
    simp only [putUvarintAux, List.mem_singleton] at hb
    omega
  | succ f ih =>
    intro n b hb
    by_cases h : n < 128
    · simp only [putUvarintAux, h, if_true, List.mem_singleton] at hb
      omega
    · simp only [putUvarintAux, h, if_false, List.mem_cons] at hb
      rcases hb with hb | hb
      · have h256 : n % 256 < 256 := Nat.mod_lt _ (by norm_num)
        rw [hb, or128 (n % 256) h256]
        omega
      · exact ih _ _ hb

/-- Every byte before the last carries the continuation bit. -/
theorem putUvarintAux_dropLast (fuel : Nat) :
    ∀ n b, b ∈ (putUvarintAux fuel n).dropLast → 128 ≤ b := by
  induction fuel with
  | zero => intro n b hb; simp [putUvarintAux] at hb
  | succ f ih =>
    intro n b hb
    by_cases h : n < 128
    · simp [putUvarintAux, h] at hb
    · simp only [putUvarintAux, h, if_false] at hb
      rcases hrest : putUvarintAux f (n / 128) with _ | ⟨a, t⟩
      · exact absurd hrest (putUvarintAux_ne_nil f (n / 128))
      · rw [hrest, List.dropLast_cons₂, List.mem_cons] at hb
        rcases hb with hb | hb
        · have h256 : n % 256 < 256 := Nat.mod_lt _ (by norm_num)
          rw [hb, or128 (n % 256) h256]
          omega
        · exact ih (n / 128) b (by rw [hrest]; exact hb)

/-- The final group is below 128 and, for a positive value, nonzero. -/
theorem putUvarintAux_getLast (fuel : Nat) :
    ∀ n l, n < 128 ^ fuel → (putUvarintAux fuel n).getLast? = some l →
      l < 128 ∧ (1 ≤ n → l ≠ 0) := by
  induction fuel with
  | zero =>
    intro n l hn hl
    have hn0 : n = 0 := by simpa using hn
    subst hn0
    simp only [putUvarintAux, Nat.zero_mod, List.getLast?_singleton, Option.some.injEq] at hl
    omega
  | succ f ih =>
    intro n l hn hl
    by_cases h : n < 128
    · simp only [putUvarintAux, h, if_true, List.getLast?_singleton, Option.some.injEq] at hl
      omega
    · simp only [putUvarintAux, h, if_false] at hl
      rcases hrest : putUvarintAux f (n / 128) with _ | ⟨a, t⟩
      · exact absurd hrest (putUvarintAux_ne_nil f (n / 128))
      · rw [hrest, List.getLast?_cons_cons] at hl
        have hdiv : n / 128 < 128 ^ f :=
          Nat.div_lt_of_lt_mul (by rw [← pow_succ']; exact hn)
        have := ih (n / 128) l hdiv (by rw [hrest]; exact hl)
        exact ⟨this.1, fun _ => this.2 (by omega)⟩

/-- A multi-byte encoding means the value is at least 128. -/
theorem putUvarintAux_length_gt_one (fuel n : Nat)
    (h : 1 < (putUvarintAux fuel n).length) : 128 ≤ n := by
  cases fuel with
  | zero => simp [putUvarintAux] at h
  | succ f =>
    by_cases hn : n < 128
    · simp [putUvarintAux, hn] at h
    · omega

/-- Round trip of `Uvarint` after `putUvarint` for any `uint64`. -/
theorem Uvarint_putUvarint (n : Nat) (h : n < 2 ^ 64) :
    Uvarint (putUvarint n) = (n, ((putUvarint n).length : Int)) := by
  have hmain := uvarintLoop_putUvarintAux 10 n 0 0
    (lt_of_lt_of_le h (by norm_num)) (by norm_num)
    (by simpa using h) (by norm_num)
  simpa [Uvarint, putUvarint] using hmain

/-- The encoding of any `uint64` is nonempty. -/
theorem putUvarint_length_pos (n : Nat) : 0 < (putUvarint n).length :=
  List.length_pos.mpr (putUvarintAux_ne_nil 10 n)

/-- `Unpack16` inverts `Pack16` on any `uint16`. -/
theorem Unpack16_Pack16 (n : Nat) (h : n < 2 ^ 16) :
    Unpack16 (Pack16 n) = .ok (n, (Pack16 n).length) := by
  have h64 : n < 2 ^ 64 := lt_of_lt_of_le h (by norm_num)
  have hlen := putUvarint_length_pos n
  simp only [Unpack16, Pack16, Uvarint_putUvarint n h64]
  rw [if_neg (by omega), if_neg (by omega), if_neg (by omega)]
  simp

/-- `Unpack32` inverts `Pack32` on any `uint32`. -/
theorem Unpack32_Pack32 (n : Nat) (h : n < 2 ^ 32) :
    Unpack32 (Pack32 n) = .ok (n, (Pack32 n).length) := by
  have h64 : n < 2 ^ 64 := lt_of_lt_of_le h (by norm_num)
  have hlen := putUvarint_length_pos n
  simp only [Unpack32, Pack32, Uvarint_putUvarint n h64]
  rw [if_neg (by omega), if_neg (by omega), if_neg (by omega)]
  simp

/-- `Unpack64` inverts `Pack64` on any `uint64`. -/
theorem Unpack64_Pack64 (n : Nat) (h : n < 2 ^ 64) :
    Unpack64 (Pack64 n) = .ok (n, (Pack64 n).length) := by
  have hlen := putUvarint_length_pos n
  simp only [Unpack64, Pack64, Uvarint_putUvarint n h]
  rw [if_neg (by omega), if_neg (by omega)]
  simp

/-! ### Encoder length accounting

The count returned by each writer function equals the number of bytes the
call appended, by mutual induction over the value tree. -/

mutual

/-- On success, the count returned by `writeValue` is the number of bytes
it appended. -/
theorem writeValue_length (ename : List Nat) (v : Value) :
    ∀ bs n, writeValue ename v = (bs, .ok n) → bs.length = n := by
  cases v with
  | VNull =>
    intro bs n h
    simp only [writeValue, Prod.mk.injEq, Except.ok.injEq] at h
    obtain ⟨rfl, rfl⟩ := h
    simp [writeCstring]
    omega
  | VObjectId b12 =>
    intro bs n h
    simp only [writeValue, Prod.mk.injEq, Except.ok.injEq] at h
    obtain ⟨rfl, rfl⟩ := h
    simp [writeCstring]
    omega
  | VDatetime m =>
    intro bs n h
    simp only [writeValue, Prod.mk.injEq, Except.ok.injEq] at h
    obtain ⟨rfl, rfl⟩ := h
    simp [writeCstring, le64]
    omega
  | VTimestamp m =>
    intro bs n h
    simp only [writeValue, Prod.mk.injEq, Except.ok.injEq] at h
    obtain ⟨rfl, rfl⟩ := h
    simp [writeCstring, le64]
    omega
  | VDouble m =>
    intro bs n h
    simp only [writeValue, Prod.mk.injEq, Except.ok.injEq] at h
    obtain ⟨rfl, rfl⟩ := h
    simp [writeCstring, le64]
    omega
  | VString s =>
    intro bs n h
    simp only [writeValue, Prod.mk.injEq, Except.ok.injEq] at h
    obtain ⟨rfl, rfl⟩ := h
    simp [writeCstring, le32]
    omega
  | VBool b =>
    intro bs n h
    simp only [writeValue, Prod.mk.injEq, Except.ok.injEq] at h
    obtain ⟨rfl, rfl⟩ := h
    simp [writeCstring]
    omega
  | VInt32 m =>
    intro bs n h
    simp only [writeValue, Prod.mk.injEq, Except.ok.injEq] at h
    obtain ⟨rfl, rfl⟩ := h
    simp [writeCstring, le32]
    omega
  | VInt64 m =>
    intro bs n h
    simp only [writeValue, Prod.mk.injEq, Except.ok.injEq] at h
    obtain ⟨rfl, rfl⟩ := h
    simp [writeCstring, le64]
    omega
  | VArr es =>
    intro bs n h
    rcases hwe : writeElems 0 es with ⟨body, r⟩
    cases r with
    | error e => simp [writeValue, writeSlice, hwe] at h
    | ok j =>
      have hbody : body.length = j := writeElems_length 0 es body j hwe
      simp only [writeValue, writeSlice, hwe, Prod.mk.injEq, Except.ok.injEq] at h
      obtain ⟨rfl, rfl⟩ := h
      simp [writeCstring, le32, hbody]
      omega
  | VDoc fs =>
    intro bs n h
    rcases hwf : writeFields fs with ⟨body, r⟩
    cases r with
    | error e => simp [writeValue, writeMap, hwf] at h
    | ok j =>
      have hbody : body.length = j := writeFields_length fs body j hwf
      simp only [writeValue, writeMap, hwf, Prod.mk.injEq, Except.ok.injEq] at h
      obtain ⟨rfl, rfl⟩ := h
      simp [writeCstring, le32, hbody]
      omega
  | VOther t =>
    intro bs n h
    simp [writeValue] at h

/-- On success, the count returned by `writeFields` is the number of
bytes it appended. -/
theorem writeFields_length (fs : List Field) :
    ∀ bs n, writeFields fs = (bs, .ok n) → bs.length = n := by
  cases fs with
  | nil =>
    intro bs n h
    simp only [writeFields, Prod.mk.injEq, Except.ok.injEq] at h
    obtain ⟨rfl, rfl⟩ := h
    rfl
  | cons kv rest =>
    intro bs n h
    rcases kv with ⟨k, v⟩
    rcases hv : writeValue k v with ⟨bs1, r1⟩
    cases r1 with
    | error e => simp [writeFields, hv] at h
    | ok n1 =>
      rcases hr : writeFields rest with ⟨bs2, r2⟩
      cases r2 with
      | error e => simp [writeFields, hv, hr] at h
      | ok n2 =>
        have h1 : bs1.length = n1 := writeValue_length k v bs1 n1 hv
        have h2 : bs2.length = n2 := writeFields_length rest bs2 n2 hr
        simp only [writeFields, hv, hr, Prod.mk.injEq, Except.ok.injEq] at h
        obtain ⟨rfl, rfl⟩ := h
        simp [h1, h2]

/-- On success, the count returned by `writeElems` is the number of bytes
it appended. -/
theorem writeElems_length (i : Nat) (es : List Value) :
    ∀ bs n, writeElems i es = (bs, .ok n) → bs.length = n := by
  cases es with
  | nil =>
    intro bs n h
    simp only [writeElems, Prod.mk.injEq, Except.ok.injEq] at h
    obtain ⟨rfl, rfl⟩ := h
    rfl
  | cons v rest =>
    intro bs n h
    rcases hv : writeValue (natToDecimal i) v with ⟨bs1, r1⟩
    cases r1 with
    | error e => simp [writeElems, hv] at h
    | ok n1 =>
      rcases hr : writeElems (i + 1) rest with ⟨bs2, r2⟩
      cases r2 with
      | error e => simp [writeElems, hv, hr] at h
      | ok n2 =>
        have h1 : bs1.length = n1 := writeValue_length (natToDecimal i) v bs1 n1 hv
        have h2 : bs2.length = n2 := writeElems_length (i + 1) rest bs2 n2 hr
        simp only [writeElems, hv, hr, Prod.mk.injEq, Except.ok.injEq] at h
        obtain ⟨rfl, rfl⟩ := h
        simp [h1, h2]

end

/-- Reading back the 4 little-endian header bytes recovers the count
modulo `2 ^ 32`. -/
theorem readLE32_le32 (n : Nat) (rest : List Nat) :
    readLE32? (le32 n ++ rest) = some (n % 2 ^ 32) := by
  simp only [le32, List.cons_append, List.nil_append, readLE32?, Option.some.injEq]
  omega

/-- On success, a `writeMap` unit has the exact count as its length, the
count (mod `2 ^ 32`) as its backpatched header, and ends in `0x00`. -/
theorem writeMap_framing (fs : List Field) :
    ∀ bs n, writeMap fs = (bs, .ok n) →
      bs.length = n ∧ readLE32? bs = some (n % 2 ^ 32) ∧ bs.getLast? = some 0 := by
  intro bs n h
  rcases hwf : writeFields fs with ⟨body, r⟩
  cases r with
  | error e => simp [writeMap, hwf] at h
  | ok j =>
    have hbody : body.length = j := writeFields_length fs body j hwf
    simp only [writeMap, hwf, Prod.mk.injEq, Except.ok.injEq] at h
    obtain ⟨rfl, rfl⟩ := h
    refine ⟨by simp [le32, hbody]; omega, readLE32_le32 _ _, ?_⟩
    rw [show le32 (4 + 1 + j) ++ body ++ [0] = (le32 (4 + 1 + j) ++ body) ++ [0] by
      simp [List.append_assoc]]
    exact List.getLast?_concat _

/-- On success, a `writeSlice` unit has the exact count as its length,
the count (mod `2 ^ 32`) as its backpatched header, and ends in `0x00`. -/
theorem writeSlice_framing (es : List Value) :
    ∀ bs n, writeSlice es = (bs, .ok n) →
      bs.length = n ∧ readLE32? bs = some (n % 2 ^ 32) ∧ bs.getLast? = some 0 := by
  intro bs n h
  rcases hwe : writeElems 0 es with ⟨body, r⟩
  cases r with
  | error e => simp [writeSlice, hwe] at h
  | ok j =>
    have hbody : body.length = j := writeElems_length 0 es body j hwe
    simp only [writeSlice, hwe, Prod.mk.injEq, Except.ok.injEq] at h
    obtain ⟨rfl, rfl⟩ := h
    refine ⟨by simp [le32, hbody]; omega, readLE32_le32 _ _, ?_⟩
    rw [show le32 (4 + 1 + j) ++ body ++ [0] = (le32 (4 + 1 + j) ++ body) ++ [0] by
      simp [List.append_assoc]]
    exact List.getLast?_concat _

/-! ### Encoder shape on supported values -/

/-- Reading back the 8 little-endian payload bytes recovers the bit
pattern modulo `2 ^ 64`. -/
theorem readLE64_le64 (n : Nat) (rest : List Nat) :
    readLE64? (le64 n ++ rest) = some (n % 2 ^ 64) := by
  simp only [le64, List.cons_append, List.nil_append, readLE64?, Option.some.injEq]
  omega

/-- Digits produced by the decimal conversion are ASCII digits. -/
theorem natToDecimalAux_digits (fuel : Nat) :
    ∀ n b, b ∈ natToDecimalAux fuel n → 48 ≤ b ∧ b ≤ 57 := by
  induction fuel with
  | zero =>
    intro n b hb
    simp only [natToDecimalAux, List.mem_singleton] at hb
    omega
  | succ f ih =>
    intro n b hb
    by_cases h : n < 10
    · simp only [natToDecimalAux, h, if_true, List.mem_singleton] at hb
      omega
    · simp only [natToDecimalAux, h, if_false, List.mem_append, List.mem_singleton] at hb
      rcases hb with hb | hb
      · exact ih (n / 10) b hb
      · omega

/-- Synthesized array keys are valid field names. -/
theorem goodName_natToDecimal (i : Nat) : goodName (natToDecimal i) = true := by
  simp only [goodName, List.all_eq_true]
  intro b hb
  have := natToDecimalAux_digits 20 i b hb
  simp only [decide_eq_true_eq]
  omega

/-- Parsing a NUL-terminated name recovers the name and the remainder. -/
theorem parseCString_append (s : List Nat) (hs : ∀ b ∈ s, b ≠ 0) :
    ∀ rest, parseCString (s ++ 0 :: rest) = some (s, rest) := by
  induction s with
  | nil => intro rest; rfl
  | cons b t ih =>
    intro rest
    have hb : b ≠ 0 := hs b (List.mem_cons_self b t)
    have ht : ∀ x ∈ t, x ≠ 0 := fun x hx => hs x (List.mem_cons_of_mem b hx)
    cases b with
    | zero => exact absurd rfl hb
    | succ b' =>
      simp only [List.cons_append, parseCString, List.append_eq, ih ht rest]

mutual

/-- On a supported value, `writeValue` succeeds and emits the type tag,
the NUL-terminated element name and the payload, with the count equal to
the emitted byte count. -/
theorem writeValue_shape (v : Value) :
    goodValue v = true → ∀ k, writeValue k v
      = (tagOf v :: (writeCstring k ++ payloadOf v),
         .ok (1 + (k.length + 1) + (payloadOf v).length)) := by
  cases v with
  | VNull =>
    intro _ k
    simp [writeValue, tagOf, payloadOf, writeCstring]
  | VObjectId bs =>
    intro _ k
    simp [writeValue, tagOf, payloadOf, writeCstring]
  | VDatetime n =>
    intro _ k
    simp [writeValue, tagOf, payloadOf, writeCstring, le64]
  | VTimestamp n =>
    intro _ k
    simp [writeValue, tagOf, payloadOf, writeCstring, le64]
  | VDouble n =>
    intro _ k
    simp [writeValue, tagOf, payloadOf, writeCstring, le64]
  | VString s =>
    intro _ k
    simp only [writeValue, tagOf, payloadOf, writeCstring, Prod.mk.injEq, Except.ok.injEq]
    constructor
    · simp
    · simp [le32]
      omega
  | VBool b =>
    intro hg k
    simp [goodValue] at hg
  | VInt32 n =>
    intro _ k
    simp [writeValue, tagOf, payloadOf, writeCstring, le32]
  | VInt64 n =>
    intro _ k
    simp [writeValue, tagOf, payloadOf, writeCstring, le64]
  | VArr es =>
    intro hg k
    have hge : goodElems es = true := by simpa [goodValue] using hg
    have hok := writeElems_ok es hge 0
    rcases hwe : writeElems 0 es with ⟨body, r⟩
    have hr : r = .ok body.length := by rw [hwe] at hok; exact congrArg Prod.snd hok
    subst hr
    have hunit : writeSlice es = (le32 (4 + 1 + body.length) ++ body ++ [0],
        .ok (4 + 1 + body.length)) := by
      simp [writeSlice, hwe]
    simp only [writeValue, hunit, tagOf, payloadOf, Prod.mk.injEq, Except.ok.injEq]
    constructor
    · simp
    · simp [le32]
      omega
  | VDoc fs =>
    intro hg k
    have hgf : goodFields fs = true := by simpa [goodValue] using hg
    have hok := writeFields_ok fs hgf
    rcases hwf : writeFields fs with ⟨body, r⟩
    have hr : r = .ok body.length := by rw [hwf] at hok; exact congrArg Prod.snd hok
    subst hr
    have hunit : writeMap fs = (le32 (4 + 1 + body.length) ++ body ++ [0],
        .ok (4 + 1 + body.length)) := by
      simp [writeMap, hwf]
    simp only [writeValue, hunit, tagOf, payloadOf, Prod.mk.injEq, Except.ok.injEq]
    constructor
    · simp
    · simp [le32]
      omega
  | VOther t =>
    intro hg k
    simp [goodValue] at hg

/-- On supported fields, `writeFields` succeeds with the byte count as
its count. -/
theorem writeFields_ok (fs : List Field) :
    goodFields fs = true → writeFields fs = ((writeFields fs).1, .ok (writeFields fs).1.length) := by
  cases fs with
  | nil => intro _; simp [writeFields]
  | cons kv rest =>
    intro hg
    rcases kv with ⟨k, v⟩
    have hgood : goodName k = true ∧ goodValue v = true ∧ goodFields rest = true := by
      simpa [goodFields, Bool.and_eq_true, and_assoc] using hg
    have hv := writeValue_shape v hgood.2.1 k
    have hr := writeFields_ok rest hgood.2.2
    rcases hwr : writeFields rest with ⟨bs2, r2⟩
    have hr2 : r2 = .ok bs2.length := by rw [hwr] at hr; exact congrArg Prod.snd hr
    subst hr2
    simp only [writeFields, hv, hwr]
    simp [writeCstring]
    omega

/-- On supported elements, `writeElems` succeeds with the byte count as
its count. -/
theorem writeElems_ok (es : List Value) :
    goodElems es = true → ∀ i,
      writeElems i es = ((writeElems i es).1, .ok (writeElems i es).1.length) := by
  cases es with
  | nil => intro _ i; simp [writeElems]
  | cons v rest =>
    intro hg i
    have hgood : goodValue v = true ∧ goodElems rest = true := by
      simpa [goodElems, Bool.and_eq_true] using hg
    have hv := writeValue_shape v hgood.1 (natToDecimal i)
    have hr := writeElems_ok rest hgood.2 (i + 1)
    rcases hwr : writeElems (i + 1) rest with ⟨bs2, r2⟩
    have hr2 : r2 = .ok bs2.length := by rw [hwr] at hr; exact congrArg Prod.snd hr
    subst hr2
    simp only [writeElems, hv, hwr]
    simp [writeCstring]
    omega

end

/-! ### Decoder round trip on encoder output -/

/-- Good names have no NUL byte. -/
theorem goodName_ne_zero (s : List Nat) (h : goodName s = true) :
    ∀ b ∈ s, b ≠ 0 := by
  intro b hb
  have hball := List.all_eq_true.mp h b hb
  simp only [decide_eq_true_eq] at hball
  omega

/-- Supported values have a nonzero type tag. -/
theorem tagOf_ne_zero (v : Value) (h : goodValue v = true) : tagOf v ≠ 0 := by
  cases v <;> simp_all [tagOf, goodValue]

/-- Unfolding of `decodePayload` at the Null tag. -/
theorem decodePayload_tagNull (f : Nat) (bs : List Nat) :
    decodePayload (f + 1) 0x0a bs = .ok (.VNull, bs) := rfl

/-- Unfolding of `decodePayload` at the Double tag. -/
theorem decodePayload_tagDouble (f : Nat) (bs : List Nat) :
    decodePayload (f + 1) 0x01 bs
      = match readLE64? bs with
        | none => .error .truncated
        | some n => .ok (.VDouble n, bs.drop 8) := rfl

/-- Unfolding of `decodePayload` at the String tag. -/
theorem decodePayload_tagString (f : Nat) (bs : List Nat) :
    decodePayload (f + 1) 0x02 bs
      = match readLE32? bs with
        | none => .error .truncated
        | some len =>
          if (bs.drop 4).length < len then .error .truncated
          else
            match ((bs.drop 4).take len).getLast? with
            | some 0 => .ok (.VString ((bs.drop 4).take len).dropLast, (bs.drop 4).drop len)
            | _ => .error .badStringTerminator := rfl

/-- Unfolding of `decodePayload` at the Document tag. -/
theorem decodePayload_tagDoc (f : Nat) (bs : List Nat) :
    decodePayload (f + 1) 0x03 bs
      = match decodeDoc f bs with
        | .error e => .error e
        | .ok (fs, rest) => .ok (.VDoc fs, rest) := rfl

/-- Unfolding of `decodePayload` at the Array tag. -/
theorem decodePayload_tagArr (f : Nat) (bs : List Nat) :
    decodePayload (f + 1) 0x04 bs
      = match decodeDoc f bs with
        | .error e => .error e
        | .ok (fs, rest) => .ok (.VDoc fs, rest) := rfl

/-- Unfolding of `decodePayload` at the Binary12 tag. -/
theorem decodePayload_tagObjectId (f : Nat) (bs : List Nat) :
    decodePayload (f + 1) 0x07 bs
      = if bs.length < 12 then .error .truncated
        else .ok (.VObjectId (bs.take 12), bs.drop 12) := rfl

/-- Unfolding of `decodePayload` at the DateTime tag. -/
theorem decodePayload_tagDatetime (f : Nat) (bs : List Nat) :
    decodePayload (f + 1) 0x09 bs
      = match readLE64? bs with
        | none => .error .truncated
        | some n => .ok (.VDatetime n, bs.drop 8) := rfl

/-- Unfolding of `decodePayload` at the Int32 tag. -/
theorem decodePayload_tagInt32 (f : Nat) (bs : List Nat) :
    decodePayload (f + 1) 0x10 bs
      = match readLE32? bs with
        | none => .error .truncated
        | some n => .ok (.VInt32 n, bs.drop 4) := rfl

/-- Unfolding of `decodePayload` at the Timestamp tag. -/
theorem decodePayload_tagTimestamp (f : Nat) (bs : List Nat) :
    decodePayload (f + 1) 0x11 bs
      = match readLE64? bs with
        | none => .error .truncated
        | some n => .ok (.VTimestamp n, bs.drop 8) := rfl

/-- Unfolding of `decodePayload` at the Int64 tag. -/
theorem decodePayload_tagInt64 (f : Nat) (bs : List Nat) :
    decodePayload (f + 1) 0x12 bs
      = match readLE64? bs with
        | none => .error .truncated
        | some n => .ok (.VInt64 n, bs.drop 8) := rfl

/-- Unfolding of `decodeFields` at a nonzero tag byte. -/
theorem decodeFields_cons_ne (f tag : Nat) (htag : tag ≠ 0) (bs : List Nat) :
    decodeFields (f + 1) (tag :: bs)
      = match parseCString bs with
        | none => .error .truncated
        | some (name, r2) =>
          match decodePayload f tag r2 with
          | .error e => .error e
          | .ok (v, r3) =>
            match decodeFields f r3 with
            | .error e => .error e
            | .ok (fields, r4) => .ok ((name, v) :: fields, r4) := by
  cases tag with
  | zero => exact absurd rfl htag
  | succ t => rfl

mutual

/-- Decoding the payload written for a supported value yields its
document view and consumes exactly the payload. -/
theorem decodePayload_roundtrip (v : Value) :
    goodValue v = true → (payloadOf v).length < 2 ^ 32 →
    ∀ rest fuel, 3 * ((payloadOf v).length + rest.length) + 4 ≤ fuel →
      decodePayload fuel (tagOf v) (payloadOf v ++ rest) = .ok (docify v, rest) := by
  cases v with
  | VNull =>
    intro _ _ rest fuel hfuel
    cases fuel with
    | zero => omega
    | succ f =>
      simp only [payloadOf, tagOf, List.nil_append]
      rw [decodePayload_tagNull]
      simp [docify]
  | VObjectId b12 =>
    intro hg _ rest fuel hfuel
    have hlen : b12.length = 12 := by
      simp only [goodValue, Bool.and_eq_true, beq_iff_eq] at hg
      exact hg.1
    cases fuel with
    | zero => omega
    | succ f =>
      simp only [payloadOf, tagOf]
      rw [decodePayload_tagObjectId, if_neg (by simp [hlen]),
        List.take_left' hlen, List.drop_left' hlen]
      simp [docify]
  | VDatetime n =>
    intro hg _ rest fuel hfuel
    have hn : n < 2 ^ 64 := by simpa [goodValue] using hg
    cases fuel with
    | zero => omega
    | succ f =>
      simp only [payloadOf, tagOf]
      rw [decodePayload_tagDatetime]
      simp only [readLE64_le64, Nat.mod_eq_of_lt hn]
      rw [List.drop_left' (by simp [le64])]
      simp [docify]
  | VTimestamp n =>
    intro hg _ rest fuel hfuel
    have hn : n < 2 ^ 64 := by simpa [goodValue] using hg
    cases fuel with
    | zero => omega
    | succ f =>
      simp only [payloadOf, tagOf]
      rw [decodePayload_tagTimestamp]
      simp only [readLE64_le64, Nat.mod_eq_of_lt hn]
      rw [List.drop_left' (by simp [le64])]
      simp [docify]
  | VDouble n =>
    intro hg _ rest fuel hfuel
    have hn : n < 2 ^ 64 := by simpa [goodValue] using hg
    cases fuel with
    | zero => omega
    | succ f =>
      simp only [payloadOf, tagOf]
      rw [decodePayload_tagDouble]
      simp only [readLE64_le64, Nat.mod_eq_of_lt hn]
      rw [List.drop_left' (by simp [le64])]
      simp [docify]
  | VString s =>
    intro hg hsz rest fuel hfuel
    have hL : s.length + 1 < 2 ^ 32 := by
      simp [payloadOf, le32] at hsz
      omega
    cases fuel with
    | zero => omega
    | succ f =>
      simp only [payloadOf, tagOf, List.append_assoc, List.singleton_append]
      rw [decodePayload_tagString]
      have hdrop4 : (le32 (s.length + 1) ++ (s ++ 0 :: rest)).drop 4 = s ++ 0 :: rest :=
        List.drop_left' (by simp [le32])
      have htake : (s ++ 0 :: rest).take (s.length + 1) = s ++ [0] := by
        rw [show s ++ 0 :: rest = (s ++ [0]) ++ rest by simp]
        exact List.take_left' (by simp)
      have hdropL : (s ++ 0 :: rest).drop (s.length + 1) = rest := by
        rw [show s ++ 0 :: rest = (s ++ [0]) ++ rest by simp]
        exact List.drop_left' (by simp)
      simp only [readLE32_le32, Nat.mod_eq_of_lt hL, hdrop4, htake, hdropL,
        List.getLast?_concat, List.dropLast_concat]
      rw [if_neg (by simp)]
      simp [docify]
  | VBool b =>
    intro hg _ _ _ _
    simp [goodValue] at hg
  | VInt32 n =>
    intro hg _ rest fuel hfuel
    have hn : n < 2 ^ 32 := by simpa [goodValue] using hg
    cases fuel with
    | zero => omega
    | succ f =>
      simp only [payloadOf, tagOf]
      rw [decodePayload_tagInt32]
      simp only [readLE32_le32, Nat.mod_eq_of_lt hn]
      rw [List.drop_left' (by simp [le32])]
      simp [docify]
  | VInt64 n =>
    intro hg _ rest fuel hfuel
    have hn : n < 2 ^ 64 := by simpa [goodValue] using hg
    cases fuel with
    | zero => omega
    | succ f =>
      simp only [payloadOf, tagOf]
      rw [decodePayload_tagInt64]
      simp only [readLE64_le64, Nat.mod_eq_of_lt hn]
      rw [List.drop_left' (by simp [le64])]
      simp [docify]
  | VArr es =>
    intro hg hsz rest fuel hfuel
    have hge : goodElems es = true := by simpa [goodValue] using hg
    have hok := writeElems_ok es hge 0
    rcases hwe : writeElems 0 es with ⟨body, r⟩
    have hr : r = .ok body.length := by rw [hwe] at hok; exact congrArg Prod.snd hok
    subst hr
    have hunit : writeSlice es = (le32 (4 + 1 + body.length) ++ body ++ [0],
        .ok (4 + 1 + body.length)) := by
      simp [writeSlice, hwe]
    simp only [payloadOf, hunit] at hsz hfuel
    simp only [List.length_append, le32, List.length_cons, List.length_nil] at hsz hfuel
    cases fuel with
    | zero => omega
    | succ f =>
      have hszC : 4 + 1 + body.length < 2 ^ 32 := by omega
      have hdd := decodeSlice_roundtrip es hge
        (le32 (4 + 1 + body.length) ++ body ++ [0]) (4 + 1 + body.length) hunit hszC
        rest f (by simp [le32]; omega)
      simp only [payloadOf, tagOf, hunit]
      rw [decodePayload_tagArr, hdd]
      simp [docify]
  | VDoc fs =>
    intro hg hsz rest fuel hfuel
    have hgf : goodFields fs = true := by simpa [goodValue] using hg
    have hok := writeFields_ok fs hgf
    rcases hwf : writeFields fs with ⟨body, r⟩
    have hr : r = .ok body.length := by rw [hwf] at hok; exact congrArg Prod.snd hok
    subst hr
    have hunit : writeMap fs = (le32 (4 + 1 + body.length) ++ body ++ [0],
        .ok (4 + 1 + body.length)) := by
      simp [writeMap, hwf]
    simp only [payloadOf, hunit] at hsz hfuel
    simp only [List.length_append, le32, List.length_cons, List.length_nil] at hsz hfuel
    cases fuel with
    | zero => omega
    | succ f =>
      have hszC : 4 + 1 + body.length < 2 ^ 32 := by omega
      have hdd := decodeDoc_roundtrip fs hgf
        (le32 (4 + 1 + body.length) ++ body ++ [0]) (4 + 1 + body.length) hunit hszC
        rest f (by simp [le32]; omega)
      simp only [payloadOf, tagOf, hunit]
      rw [decodePayload_tagDoc, hdd]
      simp [docify]
  | VOther t =>
    intro hg _ _ _ _
    simp [goodValue] at hg

/-- Decoding the field bytes written for supported fields, followed by a
terminator, yields the docified fields and the remainder. -/
theorem decodeFields_roundtrip (fs : List Field) :
    goodFields fs = true → (writeFields fs).1.length < 2 ^ 32 →
    ∀ rest fuel, 3 * ((writeFields fs).1.length + 1 + rest.length) + 2 ≤ fuel →
      decodeFields fuel ((writeFields fs).1 ++ 0 :: rest)
        = .ok (docifyFields fs, rest) := by
  cases fs with
  | nil =>
    intro _ _ rest fuel hfuel
    cases fuel with
    | zero => simp [writeFields] at hfuel
    | succ f => simp [writeFields, decodeFields, docifyFields]
  | cons kv fs' =>
    intro hg hsz rest fuel hfuel
    rcases kv with ⟨k, v⟩
    have hgood : goodName k = true ∧ goodValue v = true ∧ goodFields fs' = true := by
      simpa [goodFields, Bool.and_eq_true, and_assoc] using hg
    have hshape := writeValue_shape v hgood.2.1 k
    have hrec := writeFields_ok fs' hgood.2.2
    rcases hwf : writeFields fs' with ⟨bs2, r2⟩
    have hr2 : r2 = .ok bs2.length := by rw [hwf] at hrec; exact congrArg Prod.snd hrec
    subst hr2
    have hcons : writeFields ((k, v) :: fs')
        = ((tagOf v :: (writeCstring k ++ payloadOf v)) ++ bs2,
           .ok (1 + (k.length + 1) + (payloadOf v).length + bs2.length)) := by
      simp only [writeFields, hshape, hwf]
    simp only [hcons] at hsz hfuel ⊢
    simp only [List.length_append, List.length_cons, writeCstring,
      List.length_singleton] at hsz hfuel
    cases fuel with
    | zero => omega
    | succ f =>
      have hpay := decodePayload_roundtrip v hgood.2.1 (by omega) (bs2 ++ 0 :: rest) f
        (by simp only [List.length_append, List.length_cons]; omega)
      have hfs := decodeFields_roundtrip fs' hgood.2.2
        (by simp only [hwf]; omega) rest f
        (by simp only [hwf]; omega)
      simp only [hwf] at hfs
      have hbytes : (tagOf v :: (writeCstring k ++ payloadOf v)) ++ bs2 ++ 0 :: rest
          = tagOf v :: (k ++ 0 :: (payloadOf v ++ (bs2 ++ 0 :: rest))) := by
        simp [writeCstring]
      rw [hbytes, decodeFields_cons_ne f (tagOf v) (tagOf_ne_zero v hgood.2.1) _]
      simp only [parseCString_append k (goodName_ne_zero k hgood.1), hpay, hfs]
      simp [docifyFields]

/-- Decoding the element bytes written for supported elements, followed
by a terminator, yields the docified elements and the remainder. -/
theorem decodeElems_roundtrip (es : List Value) :
    goodElems es = true → ∀ i, (writeElems i es).1.length < 2 ^ 32 →
    ∀ rest fuel, 3 * ((writeElems i es).1.length + 1 + rest.length) + 2 ≤ fuel →
      decodeFields fuel ((writeElems i es).1 ++ 0 :: rest)
        = .ok (docifyElems i es, rest) := by
  cases es with
  | nil =>
    intro _ i _ rest fuel hfuel
    cases fuel with
    | zero => simp [writeElems] at hfuel
    | succ f => simp [writeElems, decodeFields, docifyElems]
  | cons v es' =>
    intro hg i hsz rest fuel hfuel
    have hgood : goodValue v = true ∧ goodElems es' = true := by
      simpa [goodElems, Bool.and_eq_true] using hg
    have hshape := writeValue_shape v hgood.1 (natToDecimal i)
    have hrec := writeElems_ok es' hgood.2 (i + 1)
    rcases hwe : writeElems (i + 1) es' with ⟨bs2, r2⟩
    have hr2 : r2 = .ok bs2.length := by rw [hwe] at hrec; exact congrArg Prod.snd hrec
    subst hr2
    have hcons : writeElems i (v :: es')
        = ((tagOf v :: (writeCstring (natToDecimal i) ++ payloadOf v)) ++ bs2,
           .ok (1 + ((natToDecimal i).length + 1) + (payloadOf v).length + bs2.length)) := by
      simp only [writeElems, hshape, hwe]
    simp only [hcons] at hsz hfuel ⊢
    simp only [List.length_append, List.length_cons, writeCstring,
      List.length_singleton] at hsz hfuel
    cases fuel with
    | zero => omega
    | succ f =>
      have hpay := decodePayload_roundtrip v hgood.1 (by omega) (bs2 ++ 0 :: rest) f
        (by simp only [List.length_append, List.length_cons]; omega)
      have hes := decodeElems_roundtrip es' hgood.2 (i + 1)
        (by simp only [hwe]; omega) rest f
        (by simp only [hwe]; omega)
      simp only [hwe] at hes
      have hbytes : (tagOf v :: (writeCstring (natToDecimal i) ++ payloadOf v)) ++ bs2 ++ 0 :: rest
          = tagOf v :: (natToDecimal i ++ 0 :: (payloadOf v ++ (bs2 ++ 0 :: rest))) := by
        simp [writeCstring]
      rw [hbytes, decodeFields_cons_ne f (tagOf v) (tagOf_ne_zero v hgood.1) _]
      simp only [parseCString_append (natToDecimal i)
        (goodName_ne_zero _ (goodName_natToDecimal i)), hpay, hes]
      simp [docifyElems]

/-- Decoding a successfully encoded document unit (with trailing bytes)
yields the docified fields and the trailing bytes. -/
theorem decodeDoc_roundtrip (fs : List Field) :
    goodFields fs = true → ∀ unit C, writeMap fs = (unit, .ok C) → C < 2 ^ 32 →
    ∀ rest fuel, 3 * (unit.length + rest.length) + 3 ≤ fuel →
      decodeDoc fuel (unit ++ rest) = .ok (docifyFields fs, rest) := by
  intro hg unit C hunit hC rest fuel hfuel
  rcases hwf : writeFields fs with ⟨body, r⟩
  cases r with
  | error e => rw [writeMap, hwf] at hunit; simp at hunit
  | ok j =>
    have hbody : body.length = j := writeFields_length fs body j hwf
    have hmap : writeMap fs = (le32 (4 + 1 + j) ++ body ++ [0], .ok (4 + 1 + j)) := by
      simp [writeMap, hwf]
    rw [hmap] at hunit
    obtain ⟨h1, h2⟩ := (Prod.mk.injEq _ _ _ _).mp hunit
    injection h2 with h2
    subst h1
    subst h2
    have hplen : (le32 (4 + 1 + j) ++ (body ++ [0])).length = 4 + 1 + j := by
      simp [le32]
      omega
    rw [show le32 (4 + 1 + j) ++ body ++ [0] = le32 (4 + 1 + j) ++ (body ++ [0]) by
      simp] at hfuel ⊢
    simp only [List.length_append, le32, List.length_cons, List.length_nil] at hfuel
    cases fuel with
    | zero => omega
    | succ f =>
      have hread : readLE32? ((le32 (4 + 1 + j) ++ (body ++ [0])) ++ rest)
          = some (4 + 1 + j) := by
        rw [show (le32 (4 + 1 + j) ++ (body ++ [0])) ++ rest
              = le32 (4 + 1 + j) ++ ((body ++ [0]) ++ rest) by simp,
          readLE32_le32, Nat.mod_eq_of_lt hC]
      have hnotlt : ¬(((le32 (4 + 1 + j) ++ (body ++ [0])) ++ rest).length < 4 + 1 + j) := by
        simp [le32]
        omega
      have htake : (((le32 (4 + 1 + j) ++ (body ++ [0])) ++ rest).take (4 + 1 + j)).drop 4
          = body ++ [0] := by
        rw [List.take_left' hplen, List.drop_left' (by simp [le32])]
      have hdf := decodeFields_roundtrip fs hg
        (by simp only [hwf]; omega) [] f
        (by simp only [hwf, List.length_nil]; omega)
      simp only [hwf] at hdf
      have hdf2 : decodeFields f (body ++ [0]) = .ok (docifyFields fs, []) := by
        simpa using hdf
      have hdrop : ((le32 (4 + 1 + j) ++ (body ++ [0])) ++ rest).drop (4 + 1 + j) = rest :=
        List.drop_left' hplen
      simp only [decodeDoc, hread, hnotlt, if_false, htake, hdf2, hdrop]
      simp

/-- Decoding a successfully encoded array unit (with trailing bytes)
yields the docified elements and the trailing bytes. -/
theorem decodeSlice_roundtrip (es : List Value) :
    goodElems es = true → ∀ unit C, writeSlice es = (unit, .ok C) → C < 2 ^ 32 →
    ∀ rest fuel, 3 * (unit.length + rest.length) + 3 ≤ fuel →
      decodeDoc fuel (unit ++ rest) = .ok (docifyElems 0 es, rest) := by
  intro hg unit C hunit hC rest fuel hfuel
  rcases hwe : writeElems 0 es with ⟨body, r⟩
  cases r with
  | error e => rw [writeSlice, hwe] at hunit; simp at hunit
  | ok j =>
    have hbody : body.length = j := writeElems_length 0 es body j hwe
    have hmap : writeSlice es = (le32 (4 + 1 + j) ++ body ++ [0], .ok (4 + 1 + j)) := by
      simp [writeSlice, hwe]
    rw [hmap] at hunit
    obtain ⟨h1, h2⟩ := (Prod.mk.injEq _ _ _ _).mp hunit
    injection h2 with h2
    subst h1
    subst h2
    have hplen : (le32 (4 + 1 + j) ++ (body ++ [0])).length = 4 + 1 + j := by
      simp [le32]
      omega
    rw [show le32 (4 + 1 + j) ++ body ++ [0] = le32 (4 + 1 + j) ++ (body ++ [0]) by
      simp] at hfuel ⊢
    simp only [List.length_append, le32, List.length_cons, List.length_nil] at hfuel
    cases fuel with
    | zero => omega
    | succ f =>
      have hread : readLE32? ((le32 (4 + 1 + j) ++ (body ++ [0])) ++ rest)
          = some (4 + 1 + j) := by
        rw [show (le32 (4 + 1 + j) ++ (body ++ [0])) ++ rest
              = le32 (4 + 1 + j) ++ ((body ++ [0]) ++ rest) by simp,
          readLE32_le32, Nat.mod_eq_of_lt hC]
      have hnotlt : ¬(((le32 (4 + 1 + j) ++ (body ++ [0])) ++ rest).length < 4 + 1 + j) := by
        simp [le32]
        omega
      have htake : (((le32 (4 + 1 + j) ++ (body ++ [0])) ++ rest).take (4 + 1 + j)).drop 4
          = body ++ [0] := by
        rw [List.take_left' hplen, List.drop_left' (by simp [le32])]
      have hde := decodeElems_roundtrip es hg 0
        (by simp only [hwe]; omega) [] f
        (by simp only [hwe, List.length_nil]; omega)
      simp only [hwe] at hde
      have hde2 : decodeFields f (body ++ [0]) = .ok (docifyElems 0 es, []) := by
        simpa using hde
      have hdrop : ((le32 (4 + 1 + j) ++ (body ++ [0])) ++ rest).drop (4 + 1 + j) = rest :=
        List.drop_left' hplen
      simp only [decodeDoc, hread, hnotlt, if_false, htake, hde2, hdrop]
      simp

end

/-! ### Claims about the VarInt codec -/

/-- C3. The claim states that for a buffer starting with a byte of at
least 128 followed by the marker `0x01`, `Unpack8` returns the value
together with a consumed-byte count of 2, in particular
`Unpack8([200,1]) == (200, 2, nil)`.  The code returns the value with a
count of 1 in this branch (`return blob[0], 1, nil`), contradicting its
own documentation that the second result is how many bytes were used: the
two-byte encoding produced by `Pack8` occupies 2 bytes.  This theorem
evaluates the model at the failing input: the count is 1, not 2. -/
theorem claim_C3_code_divergence :
    Unpack8 [200, 1] = .ok (200, 1) ∧ Unpack8 [200, 1] ≠ .ok (200, 2) ∧
      Pack8 200 = [200, 1] := by
  refine ⟨rfl, ?_, rfl⟩
  intro hcon
  simp [Unpack8] at hcon

/-- C7. `Pack8` emits a single byte `[n]` for `n < 128`, the two bytes
`[n, 0x01]` for `128 ≤ n < 256`, in particular `Pack8 5 = [5]` and
`Pack8 200 = [200, 1]`, and its output never exceeds 2 bytes. -/
theorem claim_C7_pack8 (n : Nat) (h : n < 256) :
    (n < 128 → Pack8 n = [n]) ∧ (128 ≤ n → Pack8 n = [n, 0x01]) ∧
      (Pack8 n).length ≤ 2 ∧ Pack8 5 = [5] ∧ Pack8 200 = [200, 1] := by
  refine ⟨fun hlt => by simp [Pack8, hlt],
    fun hge => by simp only [Pack8]; rw [if_neg (by omega)], ?_, rfl, rfl⟩
  by_cases hlt : n < 128 <;> simp [Pack8, hlt]

/-- Witness for C7 at `n = 200`. -/
theorem claim_C7_pack8_witness :
    (200 : Nat) < 256 ∧ Pack8 200 = [200, 0x01] :=
  ⟨by decide, (claim_C7_pack8 200 (by decide)).2.1 (by decide)⟩

/-- C8. For each width, packing is the minimal standard base-128 varint
encoding (all bytes before the last carry the continuation bit, the last
group is below 128 and, for multi-byte encodings, nonzero), the length is
bounded by 3, 5 and 10 bytes respectively, and unpacking the packed bytes
returns the value together with the exact encoded length; in particular
`Pack16 300 = [0xAC, 0x02]` and `Unpack16 [0xAC, 0x02] = (300, 2, nil)`. -/
theorem claim_C8_varint_roundtrip (n16 n32 n64 : Nat)
    (h16 : n16 < 2 ^ 16) (h32 : n32 < 2 ^ 32) (h64 : n64 < 2 ^ 64) :
    (Unpack16 (Pack16 n16) = .ok (n16, (Pack16 n16).length) ∧
      (Pack16 n16).length ≤ 3 ∧
      (∀ b ∈ (Pack16 n16).dropLast, 128 ≤ b) ∧
      (∀ l, (Pack16 n16).getLast? = some l →
        l < 128 ∧ (1 < (Pack16 n16).length → l ≠ 0))) ∧
    (Unpack32 (Pack32 n32) = .ok (n32, (Pack32 n32).length) ∧
      (Pack32 n32).length ≤ 5 ∧
      (∀ b ∈ (Pack32 n32).dropLast, 128 ≤ b) ∧
      (∀ l, (Pack32 n32).getLast? = some l →
        l < 128 ∧ (1 < (Pack32 n32).length → l ≠ 0))) ∧
    (Unpack64 (Pack64 n64) = .ok (n64, (Pack64 n64).length) ∧
      (Pack64 n64).length ≤ 10 ∧
      (∀ b ∈ (Pack64 n64).dropLast, 128 ≤ b) ∧
      (∀ l, (Pack64 n64).getLast? = some l →
        l < 128 ∧ (1 < (Pack64 n64).length → l ≠ 0))) ∧
    Pack16 300 = [0xAC, 0x02] ∧ Unpack16 [0xAC, 0x02] = .ok (300, 2) := by
  have hbound16 : n16 < 128 ^ 3 := lt_of_lt_of_le h16 (by norm_num)
  have hbound32 : n32 < 128 ^ 5 := lt_of_lt_of_le h32 (by norm_num)
  have hbound64 : n64 < 128 ^ 10 := lt_of_lt_of_le h64 (by norm_num)
  refine ⟨⟨Unpack16_Pack16 n16 h16, ?_, ?_, ?_⟩,
    ⟨Unpack32_Pack32 n32 h32, ?_, ?_, ?_⟩,
    ⟨Unpack64_Pack64 n64 h64, ?_, ?_, ?_⟩, rfl, rfl⟩
  · exact putUvarintAux_length 10 3 n16 (by norm_num) hbound16
  · exact fun b hb => putUvarintAux_dropLast 10 n16 b hb
  · intro l hl
    exact ⟨(putUvarintAux_getLast 10 n16 l (lt_of_lt_of_le h16 (by norm_num)) hl).1,
      fun hgt => (putUvarintAux_getLast 10 n16 l (lt_of_lt_of_le h16 (by norm_num)) hl).2
        (by have := putUvarintAux_length_gt_one 10 n16 hgt; omega)⟩
  · exact putUvarintAux_length 10 5 n32 (by norm_num) hbound32
  · exact fun b hb => putUvarintAux_dropLast 10 n32 b hb
  · intro l hl
    exact ⟨(putUvarintAux_getLast 10 n32 l (lt_of_lt_of_le h32 (by norm_num)) hl).1,
      fun hgt => (putUvarintAux_getLast 10 n32 l (lt_of_lt_of_le h32 (by norm_num)) hl).2
        (by have := putUvarintAux_length_gt_one 10 n32 hgt; omega)⟩
  · exact putUvarintAux_length 10 10 n64 (by norm_num) hbound64
  · exact fun b hb => putUvarintAux_dropLast 10 n64 b hb
  · intro l hl
    exact ⟨(putUvarintAux_getLast 10 n64 l hbound64 hl).1,
      fun hgt => (putUvarintAux_getLast 10 n64 l hbound64 hl).2
        (by have := putUvarintAux_length_gt_one 10 n64 hgt; omega)⟩

/-- Witness for C8 at `n16 = 300`, `n32 = 3000000000`,
`n64 = 12345678901234567890`. -/
theorem claim_C8_varint_roundtrip_witness :
    Unpack16 (Pack16 300) = .ok (300, (Pack16 300).length) ∧
    Unpack32 (Pack32 3000000000) = .ok (3000000000, (Pack32 3000000000).length) ∧
    Unpack64 (Pack64 12345678901234567890) =
      .ok (12345678901234567890, (Pack64 12345678901234567890).length) :=
  have h := claim_C8_varint_roundtrip 300 3000000000 12345678901234567890
    (by norm_num) (by norm_num) (by norm_num)
  ⟨h.1.1, h.2.1.1, h.2.2.1.1⟩

/-! ### Claims about the document encoder -/

/-- C1. For every supported value tree with a keyed record at the top
level, decoding the bytes produced by `encode` with the decoder defined
by the wire format yields a value structurally equal to the input, up to
arrays becoming documents with decimal-string keys (`docifyFields`).  The
decoder is modelled from the specification (no decoder exists in the
repository); the size hypothesis keeps the unit inside the 32-bit length
header. -/
theorem claim_C1_roundtrip (fs : List Field) (bs : List Nat) (c : Nat)
    (hg : goodFields fs = true) (he : writeMap fs = (bs, .ok c)) (hsz : c < 2 ^ 32) :
    encode (.map fs) = .returned bs none ∧
    Decode bs = .ok (.VDoc (docifyFields fs), []) := by
  constructor
  · simp [encode, he]
  · have hdd := decodeDoc_roundtrip fs hg bs c he hsz [] (3 * bs.length + 3)
      (by simp)
    rw [List.append_nil] at hdd
    simp [Decode, hdd]

/-- Witness for C1 on a document holding an array field and a string
field; the decoded value is its docified form and decoding consumes the
whole buffer. -/
theorem claim_C1_roundtrip_witness :
    encode (.map [([97], .VArr [.VInt32 7]), ([98], .VString [104, 105])])
      = .returned [30, 0, 0, 0, 4, 97, 0, 12, 0, 0, 0, 16, 48, 0, 7, 0, 0, 0, 0,
          2, 98, 0, 3, 0, 0, 0, 104, 105, 0, 0] none ∧
    Decode [30, 0, 0, 0, 4, 97, 0, 12, 0, 0, 0, 16, 48, 0, 7, 0, 0, 0, 0,
          2, 98, 0, 3, 0, 0, 0, 104, 105, 0, 0]
      = .ok (.VDoc (docifyFields [([97], .VArr [.VInt32 7]), ([98], .VString [104, 105])]), []) ∧
    docifyFields [([97], .VArr [.VInt32 7]), ([98], .VString [104, 105])]
      = [([97], .VDoc [([48], .VInt32 7)]), ([98], .VString [104, 105])] :=
  have h := claim_C1_roundtrip [([97], .VArr [.VInt32 7]), ([98], .VString [104, 105])]
    [30, 0, 0, 0, 4, 97, 0, 12, 0, 0, 0, 16, 48, 0, 7, 0, 0, 0, 0,
      2, 98, 0, 3, 0, 0, 0, 104, 105, 0, 0] 30
    (by simp [goodFields, goodValue, goodElems, goodName])
    (by simp [writeMap, writeFields, writeValue, writeSlice, writeElems,
      writeCstring, le32, natToDecimal, natToDecimalAux])
    (by norm_num)
  ⟨h.1, h.2, by simp [docifyFields, docify, docifyElems, natToDecimal, natToDecimalAux]⟩

/-- C2. For every successfully encoded document or array unit, the 4-byte
little-endian header equals the exact byte count of the unit (header,
fields and trailing terminator) and the unit ends with a single `0x00`
byte.  Every nested unit inside an encoding is itself the output of
`writeMap` or `writeSlice` on the sub-value (see the `VDoc` and `VArr`
branches of `writeValue`), so this universally quantified statement covers
all nested units as well.  The condition `count < 2 ^ 32` makes the
backpatched 32-bit header exact. -/
theorem claim_C2_header_invariant (fs : List Field) (es : List Value)
    (bsM bsS : List Nat) (cM cS : Nat)
    (hM : writeMap fs = (bsM, .ok cM)) (hS : writeSlice es = (bsS, .ok cS))
    (hMsz : cM < 2 ^ 32) (hSsz : cS < 2 ^ 32) :
    bsM.length = cM ∧ readLE32? bsM = some cM ∧ bsM.getLast? = some 0 ∧
    bsS.length = cS ∧ readLE32? bsS = some cS ∧ bsS.getLast? = some 0 := by
  obtain ⟨hm1, hm2, hm3⟩ := writeMap_framing fs bsM cM hM
  obtain ⟨hs1, hs2, hs3⟩ := writeSlice_framing es bsS cS hS
  rw [Nat.mod_eq_of_lt hMsz] at hm2
  rw [Nat.mod_eq_of_lt hSsz] at hs2
  exact ⟨hm1, hm2, hm3, hs1, hs2, hs3⟩

/-- Witness for C2 on the document with a single boolean field and the
array with a single null element. -/
theorem claim_C2_header_invariant_witness :
    ([9, 0, 0, 0, 8, 97, 0, 1, 0] : List Nat).length = 9 ∧
    readLE32? [9, 0, 0, 0, 8, 97, 0, 1, 0] = some 9 ∧
    ([9, 0, 0, 0, 8, 97, 0, 1, 0] : List Nat).getLast? = some 0 ∧
    ([8, 0, 0, 0, 10, 48, 0, 0] : List Nat).length = 8 ∧
    readLE32? [8, 0, 0, 0, 10, 48, 0, 0] = some 8 ∧
    ([8, 0, 0, 0, 10, 48, 0, 0] : List Nat).getLast? = some 0 :=
  claim_C2_header_invariant [([97], .VBool true)] [.VNull]
    [9, 0, 0, 0, 8, 97, 0, 1, 0] [8, 0, 0, 0, 10, 48, 0, 0] 9 8
    (by simp [writeMap, writeFields, writeValue, writeCstring, le32])
    (by simp [writeSlice, writeElems, writeValue, writeCstring, le32,
      natToDecimal, natToDecimalAux])
    (by norm_num) (by norm_num)

/-- C4, counterexample.  The claim says every field whose kind is absent
from the type-tag table (which omits Boolean) fails with an error carrying
the field name and the observed kind.  The code encodes booleans with tag
`0x08`, so encoding a document with a boolean field succeeds; and for a
genuinely unsupported kind, the error carries only the Go type string,
not the field name. -/
theorem claim_C4_counterexample :
    encode (.map [([97], .VBool true)]) = .returned [9, 0, 0, 0, 8, 97, 0, 1, 0] none ∧
    writeValue [97] (.VOther "int8") = ([], .error (.unsupportedType "int8")) := by
  constructor
  · simp [encode, writeMap, writeFields, writeValue, writeCstring, le32]
  · simp [writeValue]

/-- C4, amended.  Every field whose kind is neither in the type-tag table
nor Boolean fails with an unsupported-type error carrying the observed
kind (the field name is not part of the error), and no bytes are written
for that field; a Boolean field is encoded successfully. -/
theorem claim_C4_unsupported_kind (ename : List Nat) (t : String) (b : Bool) :
    writeValue ename (.VOther t) = ([], .error (.unsupportedType t)) ∧
    (writeValue ename (.VBool b)).2 = .ok (ename.length + 3) := by
  refine ⟨by simp [writeValue], ?_⟩
  simp only [writeValue, Except.ok.injEq]
  omega

/-- C5.  The claim states that every top-level non-map input (null,
array, scalar) yields an `UnsupportedRootType` error without panicking.
The code calls `rv.IsNil()` before inspecting the kind, and
`reflect.Value.IsNil` panics on non-nilable kinds and on the zero
`Value`, so a scalar passed directly, or an untyped nil, panics instead
of returning the error the final `return` of `encode` was written to
produce.  Nil pointers, slices and non-map pointers do return errors with
no bytes, as the claim says. -/
theorem claim_C5_code_divergence :
    encode (.scalar "int") = .panicked "reflect: call of reflect.Value.IsNil on int Value" ∧
    encode .untypedNil = .panicked "reflect: call of reflect.Value.IsNil on zero Value" ∧
    encode (.slice "[]int") = .returned [] (some (.unsupportedRoot "[]int")) ∧
    encode (.typedNil "*int") = .returned [] (some (.wasNil "*int")) ∧
    encode (.ptrToOther "*int") = .returned [] (some (.unsupportedRoot "*int")) :=
  ⟨rfl, rfl, rfl, rfl, rfl⟩

/-- C6, counterexample.  The claim says a failing `Encode` returns no
partial output bytes.  Encoding a document whose single field has an
unsupported kind returns the error together with the 4 placeholder header
bytes already appended to the buffer. -/
theorem claim_C6_counterexample :
    encode (.map [([97], .VOther "int8")])
      = .returned [0, 0, 0, 0] (some (.unsupportedType "int8")) ∧
    ([0, 0, 0, 0] : List Nat) ≠ [] := by
  constructor
  · simp [encode, writeMap, writeFields, writeValue]
  · simp

/-- C6, amended.  Whenever `encode` fails on a map, the error is returned
synchronously, but the byte buffer accompanying it is not empty: it holds
the 4-byte placeholder header followed by everything written before the
failure. -/
theorem claim_C6_partial_output (fs : List Field) (bs : List Nat) (e : EncErr)
    (h : writeFields fs = (bs, .error e)) :
    encode (.map fs) = .returned ([0, 0, 0, 0] ++ bs) (some e) := by
  simp [encode, writeMap, h]

/-- Witness for C6 on the single unsupported field. -/
theorem claim_C6_partial_output_witness :
    encode (.map [([97], .VOther "int8")])
      = .returned ([0, 0, 0, 0] ++ []) (some (.unsupportedType "int8")) :=
  claim_C6_partial_output [([97], .VOther "int8")] [] (.unsupportedType "int8")
    (by simp [writeFields, writeValue])

/-- C9, counterexample.  The claim says the 4-byte length written for a
string field equals the number of characters plus one.  The code writes
`len(s) + 1`, the byte length plus one.  For the two-byte, one-character
string `"é"` (UTF-8 bytes `0xC3 0xA9`) the written length field is 3,
but the character count plus one is 2. -/
theorem claim_C9_counterexample :
    writeValue [97] (.VString [195, 169])
      = ([0x02, 97, 0, 3, 0, 0, 0, 195, 169, 0], .ok 10) ∧
    readLE32? (([0x02, 97, 0, 3, 0, 0, 0, 195, 169, 0] : List Nat).drop 3) = some 3 ∧
    utf8CharCount [195, 169] + 1 ≠ 3 := by
  refine ⟨?_, rfl, by decide⟩
  simp [writeValue, writeCstring, le32]

/-- C9, amended.  For every string field, the encoder writes the tag
`0x02`, the NUL-terminated field name, a 4-byte little-endian length
equal to the number of bytes of the string plus 1, then the string bytes
followed by a single NUL. -/
theorem claim_C9_string_field (ename s : List Nat) :
    writeValue ename (.VString s)
      = ([0x02] ++ writeCstring ename ++ le32 (s.length + 1) ++ s ++ [0],
         .ok (ename.length + s.length + 7)) := by
  simp only [writeValue, Prod.mk.injEq, Except.ok.injEq, true_and]
  omega

/-- C10.  For every boolean field, the encoder succeeds and writes the
tag `0x08`, the NUL-terminated field name and one payload byte, `0x01`
for true and `0x00` for false; a document holding just that field encodes
with no error. -/
theorem claim_C10_bool_field (ename : List Nat) (b : Bool) :
    writeValue ename (.VBool b)
      = ([0x08] ++ writeCstring ename ++ [if b then 1 else 0], .ok (ename.length + 3)) ∧
    encode (.map [(ename, .VBool b)])
      = .returned (le32 (ename.length + 8)
          ++ ([0x08] ++ writeCstring ename ++ [if b then 1 else 0]) ++ [0]) none := by
  have hcount : 1 + (ename.length + 1) + 1 = ename.length + 3 := by omega
  constructor
  · simp only [writeValue, Prod.mk.injEq, Except.ok.injEq, true_and]
    omega
  · have harg : 4 + 1 + (1 + (ename.length + 1) + 1) = ename.length + 8 := by omega
    simp only [encode, writeMap, writeFields, writeValue, harg]
    simp

end Safing
